import Mathlib

/-!
Verification of the firehoser delivery-stream library (src/firehoser.js)
against its specification.

Shallow embedding conventions:
* A raw caller record is a `String` (the base `DeliveryStream.formatRecord`
  appends a newline to it, so records are textual).
* `FRecord` is the wire-ready record `\x7bData: ...\x7d` built by `formatRecord`.
* The schema-validation capability (`jayschema`) is an external collaborator;
  it is a parameter `V : String → Schema → List Violation` of the functions
  that use it, mirroring `schemaValidator.validate(record, schema)`.
* The transport capability (`firehose.putRecordBatch`) is an external
  collaborator; a single chunk drain takes an oracle
  `T : Nat → List FRecord → BatchOutcome` giving the outcome of the
  transport call at each attempt index, and the full submission takes
  `T : Nat → Nat → List FRecord → BatchOutcome` (chunk index, attempt).
* Timing (`retryInterval`, `setTimeout`, `setInterval`) only schedules work;
  it is not part of the functional embedding.
-/

/-- The schema handed to the external validator is opaque to this library. -/
def Schema : Type := String

/-- One validation violation as reported by the external validator
(jayschema result object: `desc`, `instanceContext`, `kind`,
`constraintName`, `constraintValue`, `testedValue`). -/
structure Violation where
  desc : Option String
  instanceContext : String
  kind : Option String
  constraintName : String
  constraintValue : String
  testedValue : String
deriving DecidableEq, Repr

/-- A wire-ready record: the object `\x7bData: ...\x7d` sent to the transport. -/
structure FRecord where
  Data : String
deriving DecidableEq, Repr

/-- The `originalRecord` field of a delivery error: absent (whole-batch
transport failure), a raw caller record (schema error), or a formatted
record (per-record transport failure). -/
inductive OrigRecord where
  | none
  | raw (r : String)
  | fmt (f : FRecord)
deriving DecidableEq, Repr

/-- The `details` payload of a delivery error. -/
inductive ErrDetails where
  | batch (err : String)
  | record (errorCode : String) (errorMessage : String)
  | schemaViolation (ve : Violation)
deriving DecidableEq, Repr

/-- A delivery error object as built by the source: a `type` tag
(`"schema"` or `"firehose"`), a description, a details payload and the
originating record. -/
structure DeliveryError where
  type : String
  description : String
  details : ErrDetails
  originalRecord : OrigRecord
deriving DecidableEq, Repr

/-- `buildSchemaErrorDescription(ve)` from the source: prefer `ve.desc`,
otherwise build a message from the violation fields, stripping the
JSON-pointer prefix from `instanceContext` and dotting the path.
(The source wraps the field path in single quotes; the quote characters are
elided here, which no claim depends on.) -/
def buildSchemaErrorDescription (ve : Violation) : String :=
  match ve.desc with
  | some d => d
  | none =>
    let field := ((ve.instanceContext.replace "#/" "").replace "#" "").replace "/" "."
    (ve.kind.getD "Error") ++ " on " ++ field ++ ".  Expected " ++
      ve.constraintName ++ " to be " ++ ve.constraintValue ++
      ", actual value was " ++ ve.testedValue ++ "."

/-- The schema-type delivery error pushed for an invalid record, built from
the first reported violation (`validationErrors[0]`). -/
def schemaError (record : String) (ve : Violation) : DeliveryError :=
  { type := "schema"
    description := buildSchemaErrorDescription ve
    details := ErrDetails.schemaViolation ve
    originalRecord := OrigRecord.raw record }

/-- `DeliveryStream.validateRecords(records)`: with no schema, everything is
valid; with a schema, each record is validated and either appended to the
valid list or turned into one schema error from its first violation. -/
def validateRecords (V : String → Schema → List Violation) (schema : Option Schema)
    (records : List String) : List String × List DeliveryError :=
  match schema with
  | Option.none => (records, [])
  | some s => go V s records
where
  /-- The `_.forEach` loop of `validateRecords`, pushing each record to
  exactly one of the two output lists. -/
  go (V : String → Schema → List Violation) (s : Schema) :
      List String → List String × List DeliveryError
  | [] => ([], [])
  | r :: rest =>
    let acc := go V s rest
    match V r s with
    | [] => (r :: acc.1, acc.2)
    | ve :: _ => (acc.1, schemaError r ve :: acc.2)

/-- `DeliveryStream.formatRecord(record)`: wrap the record, newline-terminated. -/
def formatRecord (record : String) : FRecord :=
  { Data := record ++ "\n" }

/-- `_.chunk(l, size)` (lodash): split `l` into consecutive groups of
`size`; the last group holds the remainder; a size below 1 yields `[]`. -/
def chunkList (size : Nat) : List α → List (List α)
  | [] => []
  | a :: l =>
    if _h : size = 0 then []
    else (a :: l).take size :: chunkList size ((a :: l).drop size)
termination_by l => l.length
decreasing_by
  simp only [List.length_drop, List.length_cons]
  omega

/-- The outcome of one `firehose.putRecordBatch` call: either the call
itself errors (`firehoseErr` truthy), or it returns a positional response
list, `some (ErrorCode, ErrorMessage)` marking a failed record and `none`
a delivered one (the source tests `_.isUndefined(result.ErrorCode)`). -/
inductive BatchOutcome where
  | fail (err : String)
  | ok (responses : List (Option (String × String)))
deriving DecidableEq, Repr

/-- The single error object passed to the callback when the transport call
itself errors: `type: "firehose"`, `originalRecord: null`. -/
def firehoseBatchError (err : String) : DeliveryError :=
  { type := "firehose"
    description := "Internal aws-sdk error."
    details := ErrDetails.batch err
    originalRecord := OrigRecord.none }

/-- The leftover error pushed for one failed record of a batch response. -/
def recordError (errorCode errorMessage : String) (orig : FRecord) : DeliveryError :=
  { type := "firehose"
    description := errorMessage
    details := ErrDetails.record errorCode errorMessage
    originalRecord := OrigRecord.fmt orig }

/-- The `for ... of _.zip(records, resp.RequestResponses)` loop of `drain`:
one leftover error per failed position.  (The transport guarantees a
positional response per submitted record, so the zip is exact.) -/
def failedOf (records : List FRecord) (responses : List (Option (String × String))) :
    List DeliveryError :=
  (records.zip responses).filterMap fun p =>
    match p.2 with
    | Option.none => Option.none
    | some (c, m) => some (recordError c m p.1)

/-- `pickData(leftover)` from the source: `_.pick(leftover.originalRecord,
["Data"])`.  On the leftovers built by `drain` the original record is always
a formatted record, whose only field is `Data`; on the other shapes lodash
pick yields an empty object, rendered here as an empty `Data`. -/
def pickData (leftover : DeliveryError) : FRecord :=
  match leftover.originalRecord with
  | OrigRecord.fmt f => { Data := f.Data }
  | _ => { Data := "" }

/-- The records of a batch that the transport reported as failed, in order. -/
def failedRecords (records : List FRecord) (responses : List (Option (String × String))) :
    List FRecord :=
  (records.zip responses).filterMap fun p =>
    match p.2 with
    | Option.none => Option.none
    | some _ => some p.1

/-- `DeliveryStream.drain(records, cb, numRetries)`: call the transport on
the current records (the oracle `T` gives the outcome of the attempt at
each retry index); on a whole-batch error report the single batch error; on
a positional response collect the leftovers, and either retry on exactly
`leftovers.map pickData` after `retryInterval` (when leftovers remain and
`numRetries < maxRetries`) or terminate with the leftovers.  The value is
the error list eventually passed to the callback. -/
def drain (maxRetries : Nat) (T : Nat → List FRecord → BatchOutcome)
    (records : List FRecord) (numRetries : Nat) : List DeliveryError :=
  match T numRetries records with
  | BatchOutcome.fail e => [firehoseBatchError e]
  | BatchOutcome.ok resp =>
    let leftovers := failedOf records resp
    if leftovers ≠ [] ∧ numRetries < maxRetries then
      drain maxRetries T (leftovers.map pickData) (numRetries + 1)
    else
      leftovers
termination_by maxRetries - numRetries

/-- The successive record batches `drain` hands to the transport, starting
at attempt `numRetries`: the observable trace of `putRecordBatch` calls. -/
def drainCalls (maxRetries : Nat) (T : Nat → List FRecord → BatchOutcome)
    (records : List FRecord) (numRetries : Nat) : List (List FRecord) :=
  match T numRetries records with
  | BatchOutcome.fail _ => [records]
  | BatchOutcome.ok resp =>
    let leftovers := failedOf records resp
    if leftovers ≠ [] ∧ numRetries < maxRetries then
      records :: drainCalls maxRetries T (leftovers.map pickData) (numRetries + 1)
    else
      [records]
termination_by maxRetries - numRetries

/-- The state of a constructed `DeliveryStream`: the three hard-coded caps
assigned in the constructor plus the stored constructor arguments.  (The
`awsConfig` side effect, the firehose client and the logger are external
collaborators and carry no delivery logic.) -/
structure DeliveryStreamState where
  maxIngestion : Nat
  maxDrains : Nat
  maxRetries : Nat
  name : String
  schema : Option Schema
  retryInterval : Nat

/-- `new DeliveryStream(name, awsConfig, schema, retryInterval)`: the caps
are assigned fixed values (`400`, `3`, `40`); `retryInterval` defaults to
`1500` at the call site. -/
def DeliveryStream.construct (name : String) (schema : Option Schema)
    (retryInterval : Nat) : DeliveryStreamState :=
  { maxIngestion := 400
    maxDrains := 3
    maxRetries := 40
    name := name
    schema := schema
    retryInterval := retryInterval }

/-- `DeliveryStream.putRecords(records)`: validate, format, chunk, drain
every chunk (the transport oracle `T` takes the chunk index and the attempt
index), and settle the promise: resolve when no error was collected, reject
with the concatenation of the schema errors and every chunk residue
otherwise.  `async.parallelLimit` returns the per-task results positionally
and `drain` never passes a task error, so the callback error is always null. -/
def putRecords (V : String → Schema → List Violation)
    (T : Nat → Nat → List FRecord → BatchOutcome)
    (ds : DeliveryStreamState) (records : List String) :
    Except (List DeliveryError) Unit :=
  let vi := validateRecords V ds.schema records
  let chunks := chunkList ds.maxIngestion (vi.1.map formatRecord)
  let results := chunks.mapIdx fun i c => drain ds.maxRetries (T i) c 0
  let allErrors := vi.2 ++ results.flatten
  if allErrors = [] then Except.ok () else Except.error allErrors

/-- Every batch handed to the transport during one `putRecords` submission:
the drain call traces of all chunks. -/
def putRecordsCalls (V : String → Schema → List Violation)
    (T : Nat → Nat → List FRecord → BatchOutcome)
    (ds : DeliveryStreamState) (records : List String) : List (List FRecord) :=
  let vi := validateRecords V ds.schema records
  let chunks := chunkList ds.maxIngestion (vi.1.map formatRecord)
  (chunks.mapIdx fun i c => drainCalls ds.maxRetries (T i) c 0).flatten

/-! ### Chunker lemmas -/

theorem chunkList_nil (size : Nat) : chunkList size ([] : List α) = [] := by
  rw [chunkList]

theorem chunkList_cons (size : Nat) (a : α) (l : List α) (hs : size ≠ 0) :
    chunkList size (a :: l) =
      (a :: l).take size :: chunkList size ((a :: l).drop size) := by
  rw [chunkList]
  simp [hs]

theorem chunkList_flatten (size : Nat) (hs : size ≠ 0) :
    ∀ l : List α, (chunkList size l).flatten = l
  | [] => by rw [chunkList_nil]; rfl
  | a :: l => by
    rw [chunkList_cons size a l hs, List.flatten_cons,
      chunkList_flatten size hs ((a :: l).drop size), List.take_append_drop]
termination_by l => l.length
decreasing_by
  simp only [List.length_drop, List.length_cons]
  omega

theorem chunkList_eq_nil_iff (size : Nat) (hs : size ≠ 0) (l : List α) :
    chunkList size l = [] ↔ l = [] := by
  cases l with
  | nil => simp [chunkList_nil]
  | cons a l => simp [chunkList_cons size a l hs]

theorem chunkList_length (size : Nat) (hs : size ≠ 0) :
    ∀ l : List α, (chunkList size l).length = (l.length + size - 1) / size
  | [] => by
    rw [chunkList_nil]
    have h0 : (0 : Nat) + size - 1 < size := by omega
    exact (Nat.div_eq_of_lt h0).symm
  | a :: l => by
    rw [chunkList_cons size a l hs, List.length_cons,
      chunkList_length size hs ((a :: l).drop size)]
    simp only [List.length_drop, List.length_cons]
    rcases Nat.lt_or_ge (l.length + 1) size with hlt | hge
    · have h1 : l.length + 1 - size = 0 := by omega
      have h2 : (0 : Nat) + size - 1 < size := by omega
      have h3 : 1 * size ≤ l.length + 1 + size - 1 := by omega
      have h4 : l.length + 1 + size - 1 < (1 + 1) * size := by omega
      rw [h1, Nat.div_eq_of_lt h2, Nat.div_eq_of_lt_le h3 h4]
    · have h1 : l.length + 1 - size + size - 1 = l.length + 1 - 1 := by omega
      have h2 : l.length + 1 + size - 1 = (l.length + 1 - 1) + size := by omega
      rw [h1, h2, Nat.add_div_right _ (Nat.pos_of_ne_zero hs)]
termination_by l => l.length
decreasing_by
  simp only [List.length_drop, List.length_cons]
  omega

theorem chunkList_mem_size (size : Nat) (hs : size ≠ 0) :
    ∀ l : List α, ∀ c ∈ chunkList size l, 0 < c.length ∧ c.length ≤ size
  | [] => by rw [chunkList_nil]; intro c hc; cases hc
  | a :: l => by
    rw [chunkList_cons size a l hs]
    intro c hc
    rcases List.mem_cons.mp hc with rfl | hc
    · constructor
      · simp [Nat.pos_of_ne_zero hs]
      · simp
    · exact chunkList_mem_size size hs ((a :: l).drop size) c hc
termination_by l => l.length
decreasing_by
  simp only [List.length_drop, List.length_cons]
  omega

theorem chunkList_dropLast_size (size : Nat) (hs : size ≠ 0) :
    ∀ l : List α, ∀ c ∈ (chunkList size l).dropLast, c.length = size
  | [] => by rw [chunkList_nil]; intro c hc; cases hc
  | a :: l => by
    rw [chunkList_cons size a l hs]
    intro c hc
    rcases hrest : chunkList size ((a :: l).drop size) with _ | ⟨c2, cs⟩
    · rw [hrest] at hc
      cases hc
    · rw [hrest, List.dropLast_cons₂] at hc
      rcases List.mem_cons.mp hc with rfl | hc
      · have hne : (a :: l).drop size ≠ [] := by
          intro hnil
          rw [(chunkList_eq_nil_iff size hs _).mpr hnil] at hrest
          cases hrest
        have : size < l.length + 1 := by
          have := List.length_pos.mpr hne
          simp only [List.length_drop, List.length_cons] at this
          omega
        simp only [List.length_take, List.length_cons]
        omega
      · have := chunkList_dropLast_size size hs ((a :: l).drop size)
        rw [hrest] at this
        exact this c hc
termination_by l => l.length
decreasing_by
  simp only [List.length_drop, List.length_cons]
  omega

/-- C5: for N ≥ 0 formatted records and maxIngestion M > 0, the chunk split
produces exactly ceil(N/M) chunks in original order (their concatenation is
the input), each of size M except possibly the last (and every chunk
non-empty and at most M), with zero chunks for empty input; `chunkList` is a
pure function, so the split has no failure mode. -/
theorem C5_chunker_contract (l : List FRecord) (M : Nat) (hM : 0 < M) :
    (chunkList M l).length = (l.length + M - 1) / M ∧
    (chunkList M l).flatten = l ∧
    (∀ c ∈ (chunkList M l).dropLast, c.length = M) ∧
    (∀ c ∈ chunkList M l, 0 < c.length ∧ c.length ≤ M) ∧
    (l = [] → chunkList M l = []) := by
  have hs : M ≠ 0 := Nat.pos_iff_ne_zero.mp hM
  exact ⟨chunkList_length M hs l, chunkList_flatten M hs l,
    chunkList_dropLast_size M hs l, chunkList_mem_size M hs l,
    fun h => by rw [h, chunkList_nil]⟩

/-- Witness for C5: three records with maxIngestion 2. -/
theorem C5_chunker_contract_witness :
    0 < 2 ∧
    ((chunkList 2 ([⟨"a"⟩, ⟨"b"⟩, ⟨"c"⟩] : List FRecord)).length =
        (([⟨"a"⟩, ⟨"b"⟩, ⟨"c"⟩] : List FRecord).length + 2 - 1) / 2 ∧
      (chunkList 2 ([⟨"a"⟩, ⟨"b"⟩, ⟨"c"⟩] : List FRecord)).flatten =
        ([⟨"a"⟩, ⟨"b"⟩, ⟨"c"⟩] : List FRecord) ∧
      (∀ c ∈ (chunkList 2 ([⟨"a"⟩, ⟨"b"⟩, ⟨"c"⟩] : List FRecord)).dropLast,
        c.length = 2) ∧
      (∀ c ∈ chunkList 2 ([⟨"a"⟩, ⟨"b"⟩, ⟨"c"⟩] : List FRecord),
        0 < c.length ∧ c.length ≤ 2) ∧
      (([⟨"a"⟩, ⟨"b"⟩, ⟨"c"⟩] : List FRecord) = [] →
        chunkList 2 ([⟨"a"⟩, ⟨"b"⟩, ⟨"c"⟩] : List FRecord) = [])) :=
  ⟨by decide, C5_chunker_contract [⟨"a"⟩, ⟨"b"⟩, ⟨"c"⟩] 2 (by decide)⟩

/-! ### Drain (retry state machine) lemmas -/

theorem pickData_recordError (c m : String) (o : FRecord) :
    pickData (recordError c m o) = o := rfl

theorem failedOf_map_pickData (records : List FRecord)
    (resp : List (Option (String × String))) :
    (failedOf records resp).map pickData = failedRecords records resp := by
  unfold failedOf failedRecords
  rw [List.map_filterMap]
  congr 1
  funext p
  rcases p with ⟨o, r⟩
  cases r with
  | none => rfl
  | some cm => rcases cm with ⟨c, m⟩; rfl

theorem failedRecords_subset (records : List FRecord)
    (resp : List (Option (String × String))) :
    failedRecords records resp ⊆ records := by
  intro x hx
  unfold failedRecords at hx
  rcases List.mem_filterMap.mp hx with ⟨⟨o, r⟩, hmem, hf⟩
  cases r with
  | none => cases hf
  | some cm =>
    cases hf
    exact (List.of_mem_zip hmem).1

theorem failedOf_shape (records : List FRecord)
    (resp : List (Option (String × String))) :
    ∀ e ∈ failedOf records resp,
      ∃ c m o, e = recordError c m o ∧ o ∈ records := by
  intro e he
  unfold failedOf at he
  rcases List.mem_filterMap.mp he with ⟨⟨o, r⟩, hmem, hf⟩
  cases r with
  | none => cases hf
  | some cm =>
    rcases cm with ⟨c, m⟩
    cases hf
    exact ⟨c, m, o, rfl, (List.of_mem_zip hmem).1⟩

theorem drain_fail (M : Nat) (T : Nat → List FRecord → BatchOutcome)
    (rs : List FRecord) (n : Nat) (e : String) (h : T n rs = BatchOutcome.fail e) :
    drain M T rs n = [firehoseBatchError e] := by
  rw [drain.eq_def, h]

theorem drainCalls_fail (M : Nat) (T : Nat → List FRecord → BatchOutcome)
    (rs : List FRecord) (n : Nat) (e : String) (h : T n rs = BatchOutcome.fail e) :
    drainCalls M T rs n = [rs] := by
  rw [drainCalls.eq_def, h]

theorem drain_ok_terminal (M : Nat) (T : Nat → List FRecord → BatchOutcome)
    (rs : List FRecord) (n : Nat) (resp : List (Option (String × String)))
    (h : T n rs = BatchOutcome.ok resp)
    (hterm : ¬(failedOf rs resp ≠ [] ∧ n < M)) :
    drain M T rs n = failedOf rs resp := by
  rw [drain.eq_def, h]
  simp only [hterm, if_false]

theorem drainCalls_ok_terminal (M : Nat) (T : Nat → List FRecord → BatchOutcome)
    (rs : List FRecord) (n : Nat) (resp : List (Option (String × String)))
    (h : T n rs = BatchOutcome.ok resp)
    (hterm : ¬(failedOf rs resp ≠ [] ∧ n < M)) :
    drainCalls M T rs n = [rs] := by
  rw [drainCalls.eq_def, h]
  simp only [hterm, if_false]

theorem drain_ok_retry (M : Nat) (T : Nat → List FRecord → BatchOutcome)
    (rs : List FRecord) (n : Nat) (resp : List (Option (String × String)))
    (h : T n rs = BatchOutcome.ok resp)
    (hne : failedOf rs resp ≠ []) (hlt : n < M) :
    drain M T rs n = drain M T ((failedOf rs resp).map pickData) (n + 1) := by
  rw [drain.eq_def, h]
  simp [hne, hlt]

theorem drainCalls_ok_retry (M : Nat) (T : Nat → List FRecord → BatchOutcome)
    (rs : List FRecord) (n : Nat) (resp : List (Option (String × String)))
    (h : T n rs = BatchOutcome.ok resp)
    (hne : failedOf rs resp ≠ []) (hlt : n < M) :
    drainCalls M T rs n =
      rs :: drainCalls M T ((failedOf rs resp).map pickData) (n + 1) := by
  rw [drainCalls.eq_def, h]
  simp [hne, hlt]

/-- The retry discipline over a trace of transport calls starting at attempt
`n`: each batch after the first consists of exactly the records the
transport reported as failed in the immediately preceding batch. -/
def RetryChain (T : Nat → List FRecord → BatchOutcome) :
    Nat → List (List FRecord) → Prop
  | _, [] => True
  | _, [_] => True
  | n, r1 :: r2 :: rest =>
    (∃ resp, T n r1 = BatchOutcome.ok resp ∧ r2 = failedRecords r1 resp) ∧
    RetryChain T (n + 1) (r2 :: rest)

theorem getLast?_cons_of_ne_nil (a : α) (l : List α) (h : l ≠ []) :
    (a :: l).getLast? = l.getLast? := by
  cases l with
  | nil => cases h rfl
  | cons b t => exact List.getLast?_cons_cons

/-- Full behavioural contract of one `drain` run started at attempt `n`:
the transport-call trace is non-empty, begins with the input batch, has at
most `M - n + 1` entries (so at most `M - n` retries), follows the
retry-exactly-the-failures discipline, only ever re-sends records of the
input batch, and the reported error list is determined by the last call:
either the single batch error of a whole-batch transport failure, or the
per-record leftovers of the last response — non-empty only when the retry
budget is exhausted. -/
theorem drainContractAux (M : Nat) (T : Nat → List FRecord → BatchOutcome) :
    ∀ (k n : Nat) (rs : List FRecord), M - n ≤ k →
      (drainCalls M T rs n).length ≤ M - n + 1 ∧
      (drainCalls M T rs n).head? = some rs ∧
      RetryChain T n (drainCalls M T rs n) ∧
      (∀ l ∈ drainCalls M T rs n, l ⊆ rs) ∧
      ∃ last, (drainCalls M T rs n).getLast? = some last ∧
        ((∃ e, T (n + (drainCalls M T rs n).length - 1) last = BatchOutcome.fail e ∧
            drain M T rs n = [firehoseBatchError e]) ∨
         (∃ resp, T (n + (drainCalls M T rs n).length - 1) last = BatchOutcome.ok resp ∧
            drain M T rs n = failedOf last resp ∧
            (failedOf last resp ≠ [] → M ≤ n + (drainCalls M T rs n).length - 1))) := by
  intro k
  induction k with
  | zero =>
    intro n rs hk
    have hnM : ¬ n < M := by omega
    cases hT : T n rs with
    | fail e =>
      rw [drainCalls_fail M T rs n e hT]
      refine ⟨by simp, by simp, trivial, ?_, rs, by simp, Or.inl ⟨e, ?_, drain_fail M T rs n e hT⟩⟩
      · intro l hl
        rw [List.mem_singleton.mp hl]
        exact List.Subset.refl rs
      · simpa using hT
    | ok resp =>
      have hterm : ¬(failedOf rs resp ≠ [] ∧ n < M) := fun hc => hnM hc.2
      rw [drainCalls_ok_terminal M T rs n resp hT hterm]
      refine ⟨by simp, by simp, trivial, ?_, rs, by simp,
        Or.inr ⟨resp, ?_, drain_ok_terminal M T rs n resp hT hterm,
          fun _ => by simp only [List.length_cons, List.length_nil]; omega⟩⟩
      · intro l hl
        rw [List.mem_singleton.mp hl]
        exact List.Subset.refl rs
      · simpa using hT
  | succ k ih =>
    intro n rs hk
    cases hT : T n rs with
    | fail e =>
      rw [drainCalls_fail M T rs n e hT]
      refine ⟨by simp, by simp, trivial, ?_, rs, by simp,
        Or.inl ⟨e, ?_, drain_fail M T rs n e hT⟩⟩
      · intro l hl
        rw [List.mem_singleton.mp hl]
        exact List.Subset.refl rs
      · simpa using hT
    | ok resp =>
      by_cases hcond : failedOf rs resp ≠ [] ∧ n < M
      · -- recursive case: one more retry on exactly the failed records
        obtain ⟨hne, hlt⟩ := hcond
        have hrs' : (failedOf rs resp).map pickData = failedRecords rs resp :=
          failedOf_map_pickData rs resp
        have hk' : M - (n + 1) ≤ k := by omega
        obtain ⟨ihlen, ihhead, ihchain, ihsub, last, ihlast, ihdisj⟩ :=
          ih (n + 1) ((failedOf rs resp).map pickData) hk'
        rw [drainCalls_ok_retry M T rs n resp hT hne hlt]
        have hne' : drainCalls M T ((failedOf rs resp).map pickData) (n + 1) ≠ [] := by
          intro hnil
          rw [hnil] at ihhead
          cases ihhead
        refine ⟨?_, by simp, ?_, ?_, last, ?_, ?_⟩
        · simp only [List.length_cons]
          omega
        · -- retry chain
          cases hcs : drainCalls M T ((failedOf rs resp).map pickData) (n + 1) with
          | nil => exact absurd hcs hne'
          | cons c2 cs =>
            rw [hcs] at ihhead ihchain
            have hc2 : c2 = failedRecords rs resp := by
              injection ihhead with h2
              exact h2.trans hrs'
            exact ⟨⟨resp, hT, hc2⟩, ihchain⟩
        · -- every batch sent is a sub-batch of the input
          intro l hl
          rcases List.mem_cons.mp hl with rfl | hl
          · exact List.Subset.refl l
          · intro x hx
            have hx' := ihsub l hl hx
            rw [hrs'] at hx'
            exact failedRecords_subset rs resp hx'
        · rw [getLast?_cons_of_ne_nil _ _ hne']
          exact ihlast
        · -- last-call characterization transfers through the retry step
          have hdr : drain M T rs n =
              drain M T ((failedOf rs resp).map pickData) (n + 1) :=
            drain_ok_retry M T rs n resp hT hne hlt
          have hlen1 : 1 ≤ (drainCalls M T ((failedOf rs resp).map pickData) (n + 1)).length := by
            cases hcs : drainCalls M T ((failedOf rs resp).map pickData) (n + 1) with
            | nil => exact absurd hcs hne'
            | cons c cs => simp [hcs]
          have hidx : n + (rs :: drainCalls M T ((failedOf rs resp).map pickData) (n + 1)).length - 1 =
              (n + 1) + (drainCalls M T ((failedOf rs resp).map pickData) (n + 1)).length - 1 := by
            simp only [List.length_cons]
            omega
          rw [hidx, hdr]
          exact ihdisj
      · rw [drainCalls_ok_terminal M T rs n resp hT hcond]
        refine ⟨by simp, by simp, trivial, ?_, rs, by simp,
          Or.inr ⟨resp, ?_, drain_ok_terminal M T rs n resp hT hcond, ?_⟩⟩
        · intro l hl
          rw [List.mem_singleton.mp hl]
          exact List.Subset.refl rs
        · simpa using hT
        · intro hne
          have : ¬ n < M := fun hlt => hcond ⟨hne, hlt⟩
          simp only [List.length_cons, List.length_nil]
          omega

theorem mem_of_getLast?_eq_some {l : List α} {a : α} (h : l.getLast? = some a) :
    a ∈ l := by
  rcases List.mem_getLast?_eq_getLast (Option.mem_def.mpr h) with ⟨hne, rfl⟩
  exact List.getLast_mem hne

/-- C1: for every chunk `rs` and transport behaviour `T`, `drain` makes at
most `maxRetries` retries (at most `maxRetries + 1` transport calls); every
retry re-sends exactly the records the transport reported failed in the
previous attempt (`RetryChain`), and only ever records of the original
chunk; and the terminal report is determined by the last call — in the
per-record case it is exactly one `firehose`-type error per still-failing
record of the last attempt, each carrying the failure code and message and
the originating record of the chunk, and it is non-empty only once the
retry budget is exhausted. -/
theorem C1_drain_retry_policy (M : Nat) (T : Nat → List FRecord → BatchOutcome)
    (rs : List FRecord) :
    (drainCalls M T rs 0).length ≤ M + 1 ∧
    (drainCalls M T rs 0).head? = some rs ∧
    RetryChain T 0 (drainCalls M T rs 0) ∧
    (∀ l ∈ drainCalls M T rs 0, l ⊆ rs) ∧
    ∃ last, (drainCalls M T rs 0).getLast? = some last ∧
      ((∃ e, T ((drainCalls M T rs 0).length - 1) last = BatchOutcome.fail e ∧
          drain M T rs 0 = [firehoseBatchError e]) ∨
       (∃ resp, T ((drainCalls M T rs 0).length - 1) last = BatchOutcome.ok resp ∧
          drain M T rs 0 = failedOf last resp ∧
          (failedOf last resp ≠ [] → M ≤ (drainCalls M T rs 0).length - 1) ∧
          (failedOf last resp).map pickData = failedRecords last resp ∧
          ∀ e ∈ failedOf last resp, e.type = "firehose" ∧
            ∃ c m o, e = recordError c m o ∧ o ∈ rs)) := by
  obtain ⟨hlen, hhead, hchain, hsub, last, hlast, hdisj⟩ :=
    drainContractAux M T M 0 rs (by omega)
  have hlen' : (drainCalls M T rs 0).length ≤ M + 1 := by omega
  have hlastsub : last ⊆ rs := hsub last (mem_of_getLast?_eq_some hlast)
  refine ⟨hlen', hhead, hchain, hsub, last, hlast, ?_⟩
  rcases hdisj with ⟨e, hTe, hdr⟩ | ⟨resp, hTr, hdr, hex⟩
  · exact Or.inl ⟨e, by simpa using hTe, hdr⟩
  · refine Or.inr ⟨resp, by simpa using hTr, hdr, ?_, failedOf_map_pickData last resp, ?_⟩
    · intro hne
      have := hex hne
      omega
    · intro e he
      rcases failedOf_shape last resp e he with ⟨c, m, o, rfl, ho⟩
      exact ⟨rfl, c, m, o, rfl, hlastsub ho⟩

/-- C6: when the transport call for a chunk itself errors (whole-batch
total failure), `drain` performs zero retries — the trace is the single
initial call — and reports exactly one error of transport (`firehose`)
type whose `originalRecord` is null. -/
theorem C6_total_failure_no_retry (M : Nat) (T : Nat → List FRecord → BatchOutcome)
    (rs : List FRecord) (e : String) (h : T 0 rs = BatchOutcome.fail e) :
    drain M T rs 0 =
      [{ type := "firehose"
         description := "Internal aws-sdk error."
         details := ErrDetails.batch e
         originalRecord := OrigRecord.none }] ∧
    drainCalls M T rs 0 = [rs] := by
  exact ⟨drain_fail M T rs 0 e h, drainCalls_fail M T rs 0 e h⟩

/-- Witness for C6: a transport that always fails outright, one record. -/
theorem C6_total_failure_no_retry_witness :
    drain 40 (fun _ _ => BatchOutcome.fail "down") [⟨"a"⟩] 0 =
      [{ type := "firehose"
         description := "Internal aws-sdk error."
         details := ErrDetails.batch "down"
         originalRecord := OrigRecord.none }] ∧
    drainCalls 40 (fun _ _ => BatchOutcome.fail "down") [⟨"a"⟩] 0 = [[⟨"a"⟩]] :=
  C6_total_failure_no_retry 40 (fun _ _ => BatchOutcome.fail "down") [⟨"a"⟩] "down" rfl

/-! ### Validator adapter lemmas -/

theorem formatRecord_injective (a b : String) (h : formatRecord a = formatRecord b) :
    a = b := by
  have hdata : a ++ "\n" = b ++ "\n" := congrArg FRecord.Data h
  have hd : (a ++ "\n").data = (b ++ "\n").data := congrArg String.data hdata
  rw [String.data_append, String.data_append] at hd
  exact String.ext (List.append_cancel_right hd)

theorem validateRecords_go_eq (V : String → Schema → List Violation) (s : Schema) :
    ∀ records : List String,
      validateRecords.go V s records =
        (records.filterMap fun r =>
          match V r s with | [] => some r | _ :: _ => Option.none,
         records.filterMap fun r =>
          match V r s with | [] => Option.none | ve :: _ => some (schemaError r ve))
  | [] => rfl
  | r :: rest => by
    have ih := validateRecords_go_eq V s rest
    simp only [validateRecords.go, ih, List.filterMap_cons]
    cases hv : V r s with
    | nil => rfl
    | cons ve tl => rfl

theorem validateRecords_some_eq (V : String → Schema → List Violation) (s : Schema)
    (records : List String) :
    validateRecords V (some s) records =
      (records.filterMap fun r =>
        match V r s with | [] => some r | _ :: _ => Option.none,
       records.filterMap fun r =>
        match V r s with | [] => Option.none | ve :: _ => some (schemaError r ve)) :=
  validateRecords_go_eq V s records

theorem validateRecords_valid_sound (V : String → Schema → List Violation) (s : Schema)
    (records : List String) (r : String)
    (hr : r ∈ (validateRecords V (some s) records).1) : V r s = [] := by
  rw [validateRecords_some_eq] at hr
  rcases List.mem_filterMap.mp hr with ⟨a, _, hf⟩
  cases hv : V a s with
  | nil =>
    rw [hv] at hf
    cases hf
    exact hv
  | cons ve tl =>
    rw [hv] at hf
    cases hf

theorem chunkList_zero (l : List α) : chunkList 0 l = [] := by
  cases l with
  | nil => rw [chunkList_nil]
  | cons a t =>
    rw [chunkList.eq_def]
    simp

/-- C7: with no schema configured, `validateRecords` returns every record as
valid and no invalid ones; with a schema, the valid list keeps exactly the
records the validator accepts and each rejected record yields exactly one
`schema`-type error built from the first reported violation; and no rejected
record ever reaches any chunk handed to the transport. -/
theorem C7_validation_contract (V : String → Schema → List Violation) (s : Schema)
    (records : List String) (M : Nat) :
    validateRecords V Option.none records = (records, []) ∧
    (validateRecords V (some s) records).1 =
      (records.filterMap fun r =>
        match V r s with | [] => some r | _ :: _ => Option.none) ∧
    (validateRecords V (some s) records).2 =
      (records.filterMap fun r =>
        match V r s with | [] => Option.none | ve :: _ => some (schemaError r ve)) ∧
    (∀ r ∈ records, V r s ≠ [] →
      formatRecord r ∉
        (chunkList M ((validateRecords V (some s) records).1.map formatRecord)).flatten) := by
  refine ⟨rfl, congrArg Prod.fst (validateRecords_some_eq V s records),
    congrArg Prod.snd (validateRecords_some_eq V s records), ?_⟩
  intro r _hr hne hmem
  by_cases hM : M = 0
  · subst hM
    rw [chunkList_zero] at hmem
    cases hmem
  · rw [chunkList_flatten M hM] at hmem
    rcases List.mem_map.mp hmem with ⟨a, ha, heq⟩
    have : a = r := formatRecord_injective a r heq
    subst this
    exact hne (validateRecords_valid_sound V s records a ha)

/-! ### Construction-time configuration -/

/-- The state of a constructed `QueueableDeliveryStream`: the inherited
delivery-stream fields plus the queue configuration and the initially empty
buffer and null completion handle (`this.promise`, represented by the
identity of the pending promise when one exists). -/
structure QueueableDeliveryStreamState extends DeliveryStreamState where
  maxTime : Nat
  maxSize : Nat
  queue : List String
  promise : Option Nat

/-- `new QueueableDeliveryStream(name, maxTime, maxSize, ...args)`: forwards
`name` and the remaining arguments to the base constructor and stores the
queue configuration; defaults at the call site are `maxTime = 30000` and
`maxSize = 500`.  (The recurring `setInterval` timer only schedules
`drainQueue` calls; the queue model below treats those as events.) -/
def QueueableDeliveryStream.construct (name : String) (maxTime maxSize : Nat)
    (schema : Option Schema) (retryInterval : Nat) : QueueableDeliveryStreamState :=
  { toDeliveryStreamState := DeliveryStream.construct name schema retryInterval
    maxTime := maxTime
    maxSize := maxSize
    queue := []
    promise := Option.none }

/-- Counterexample to C3: no constructor call whatsoever can produce a
delivery stream whose chunk-size cap, concurrency bound or retry ceiling
equals the desired value 5 — the constructor assigns the fixed values
400, 3 and 40 regardless of its arguments. -/
theorem C3_counterexample :
    (¬ ∃ (name : String) (schema : Option Schema) (retryInterval : Nat),
        (DeliveryStream.construct name schema retryInterval).maxIngestion = 5) ∧
    (¬ ∃ (name : String) (schema : Option Schema) (retryInterval : Nat),
        (DeliveryStream.construct name schema retryInterval).maxDrains = 5) ∧
    (¬ ∃ (name : String) (schema : Option Schema) (retryInterval : Nat),
        (DeliveryStream.construct name schema retryInterval).maxRetries = 5) := by
  refine ⟨?_, ?_, ?_⟩ <;> rintro ⟨n, s, r, h⟩ <;> simp [DeliveryStream.construct] at h

/-- C3 as amended: stream name, optional schema and `retryInterval` (and,
for the Queue variant, `maxQueueTime` and `maxQueueSize`) are construction
-time configurable, while `maxIngestion`, `maxDrains` and `maxRetries` are
assigned the fixed values 400, 3 and 40 by the constructor. -/
theorem C3_configuration_amended (name : String) (schema : Option Schema)
    (retryInterval maxTime maxSize : Nat) :
    (DeliveryStream.construct name schema retryInterval).name = name ∧
    (DeliveryStream.construct name schema retryInterval).schema = schema ∧
    (DeliveryStream.construct name schema retryInterval).retryInterval = retryInterval ∧
    (DeliveryStream.construct name schema retryInterval).maxIngestion = 400 ∧
    (DeliveryStream.construct name schema retryInterval).maxDrains = 3 ∧
    (DeliveryStream.construct name schema retryInterval).maxRetries = 40 ∧
    (QueueableDeliveryStream.construct name maxTime maxSize schema retryInterval).maxTime
      = maxTime ∧
    (QueueableDeliveryStream.construct name maxTime maxSize schema retryInterval).maxSize
      = maxSize ∧
    (QueueableDeliveryStream.construct name maxTime maxSize
      schema retryInterval).toDeliveryStreamState =
      DeliveryStream.construct name schema retryInterval ∧
    (QueueableDeliveryStream.construct name maxTime maxSize schema retryInterval).queue
      = [] ∧
    (QueueableDeliveryStream.construct name maxTime maxSize schema retryInterval).promise
      = Option.none :=
  ⟨rfl, rfl, rfl, rfl, rfl, rfl, rfl, rfl, rfl, rfl, rfl⟩

/-! ### Dispatcher aggregation (putRecords) -/

/-- C4: a `putRecords` submission is finalized only from the terminal
results of every chunk drain: the error aggregate is the schema errors
followed by every chunk's residual errors; the promise resolves exactly
when that aggregate is empty (no schema error and an empty residue for
every chunk — no chunk is skipped), and otherwise rejects with exactly the
full aggregate; successfully delivered records contribute nothing. -/
theorem C4_aggregate_contract (V : String → Schema → List Violation)
    (T : Nat → Nat → List FRecord → BatchOutcome)
    (ds : DeliveryStreamState) (records : List String) :
    (putRecords V T ds records = Except.ok () ↔
      (validateRecords V ds.schema records).2 = [] ∧
      ∀ res ∈ (chunkList ds.maxIngestion
          ((validateRecords V ds.schema records).1.map formatRecord)).mapIdx
            (fun i c => drain ds.maxRetries (T i) c 0), res = []) ∧
    (putRecords V T ds records = Except.ok () ∨
      putRecords V T ds records = Except.error
        ((validateRecords V ds.schema records).2 ++
          ((chunkList ds.maxIngestion
            ((validateRecords V ds.schema records).1.map formatRecord)).mapIdx
              (fun i c => drain ds.maxRetries (T i) c 0)).flatten)) ∧
    (∀ l, putRecords V T ds records = Except.error l →
      l = (validateRecords V ds.schema records).2 ++
          ((chunkList ds.maxIngestion
            ((validateRecords V ds.schema records).1.map formatRecord)).mapIdx
              (fun i c => drain ds.maxRetries (T i) c 0)).flatten ∧
      l ≠ []) := by
  simp only [putRecords]
  by_cases hagg : ((validateRecords V ds.schema records).2 ++
      ((chunkList ds.maxIngestion
        ((validateRecords V ds.schema records).1.map formatRecord)).mapIdx
          (fun i c => drain ds.maxRetries (T i) c 0)).flatten) = []
  · rw [if_pos hagg]
    rcases List.append_eq_nil.mp hagg with ⟨h2, hfl⟩
    refine ⟨?_, Or.inl rfl, ?_⟩
    · exact ⟨fun _ => ⟨h2, List.flatten_eq_nil_iff.mp hfl⟩, fun _ => rfl⟩
    · intro l hl
      cases hl
  · rw [if_neg hagg]
    refine ⟨?_, Or.inr rfl, ?_⟩
    · constructor
      · intro h
        cases h
      · rintro ⟨h2, hres⟩
        exact absurd (List.append_eq_nil.mpr ⟨h2, List.flatten_eq_nil_iff.mpr hres⟩) hagg
    · intro l hl
      injection hl with hl
      exact ⟨hl.symm, hl ▸ hagg⟩

theorem validateRecords_nil (V : String → Schema → List Violation)
    (schema : Option Schema) : validateRecords V schema [] = ([], []) := by
  cases schema <;> rfl

/-- C10: when the valid-record set of a `putRecords` call is empty (empty
input, or every record rejected by the schema), no transport call is made
at all, and the submission settles immediately: it resolves exactly when no
schema error was produced (in particular on empty input), and otherwise
rejects with exactly the schema errors. -/
theorem C10_empty_valid_set (V : String → Schema → List Violation)
    (T : Nat → Nat → List FRecord → BatchOutcome)
    (ds : DeliveryStreamState) (records : List String)
    (h : (validateRecords V ds.schema records).1 = []) :
    putRecordsCalls V T ds records = [] ∧
    putRecords V T ds records =
      (if (validateRecords V ds.schema records).2 = [] then Except.ok ()
       else Except.error (validateRecords V ds.schema records).2) ∧
    (records = [] → putRecords V T ds records = Except.ok ()) := by
  have hchunks : chunkList ds.maxIngestion
      ((validateRecords V ds.schema records).1.map formatRecord) = [] := by
    rw [h]
    exact chunkList_nil ds.maxIngestion
  refine ⟨?_, ?_, ?_⟩
  · simp only [putRecordsCalls, hchunks, List.mapIdx_nil, List.flatten_nil]
  · simp only [putRecords, hchunks, List.mapIdx_nil, List.flatten_nil, List.append_nil]
  · intro hrec
    subst hrec
    simp only [putRecords, validateRecords_nil, List.map_nil, chunkList_nil,
      List.mapIdx_nil, List.flatten_nil, List.append_nil]
    rfl

/-- Witness for C10: a schema that rejects the only record. -/
theorem C10_empty_valid_set_witness :
    ((validateRecords
        (fun _ _ => [{ desc := some "bad", instanceContext := "", kind := Option.none,
                       constraintName := "", constraintValue := "", testedValue := "" }])
        (DeliveryStream.construct "n" (some "sch") 1500).schema ["r"]).1 = []) ∧
    (putRecordsCalls
        (fun _ _ => [{ desc := some "bad", instanceContext := "", kind := Option.none,
                       constraintName := "", constraintValue := "", testedValue := "" }])
        (fun _ _ _ => BatchOutcome.fail "x")
        (DeliveryStream.construct "n" (some "sch") 1500) ["r"] = [] ∧
      putRecords
        (fun _ _ => [{ desc := some "bad", instanceContext := "", kind := Option.none,
                       constraintName := "", constraintValue := "", testedValue := "" }])
        (fun _ _ _ => BatchOutcome.fail "x")
        (DeliveryStream.construct "n" (some "sch") 1500) ["r"] =
        (if (validateRecords
              (fun _ _ => [{ desc := some "bad", instanceContext := "", kind := Option.none,
                             constraintName := "", constraintValue := "", testedValue := "" }])
              (DeliveryStream.construct "n" (some "sch") 1500).schema ["r"]).2 = []
         then Except.ok ()
         else Except.error (validateRecords
              (fun _ _ => [{ desc := some "bad", instanceContext := "", kind := Option.none,
                             constraintName := "", constraintValue := "", testedValue := "" }])
              (DeliveryStream.construct "n" (some "sch") 1500).schema ["r"]).2) ∧
      (["r"] = ([] : List String) →
        putRecords
          (fun _ _ => [{ desc := some "bad", instanceContext := "", kind := Option.none,
                         constraintName := "", constraintValue := "", testedValue := "" }])
          (fun _ _ _ => BatchOutcome.fail "x")
          (DeliveryStream.construct "n" (some "sch") 1500) ["r"] = Except.ok ())) :=
  ⟨rfl, C10_empty_valid_set _ _ _ _ rfl⟩

/-! ### Dispatcher concurrency model -/

/-- A scheduling state of `async.parallelLimit(tasks, limit, cb)` for the
chunk-drain tasks of one submission: the chunks whose drains have not yet
started, the number of drains in flight, and the number completed.  The
scheduling contract of the (external) async library is that a pending task
starts only while fewer than `limit` tasks are running. -/
structure DispatchState where
  pending : List (List FRecord)
  running : Nat
  done : Nat
deriving DecidableEq, Repr

/-- One scheduler transition: start the next pending chunk drain when a
slot is free, or finish a running drain. -/
inductive DispatchStep (limit : Nat) : DispatchState → DispatchState → Prop
  | start (c : List FRecord) (rest : List (List FRecord)) (r d : Nat)
      (hr : r < limit) :
      DispatchStep limit ⟨c :: rest, r, d⟩ ⟨rest, r + 1, d⟩
  | finish (p : List (List FRecord)) (r d : Nat) :
      DispatchStep limit ⟨p, r + 1, d⟩ ⟨p, r, d + 1⟩

/-- The states reachable while dispatching a submission's chunk list (no
drain running before the first transition). -/
inductive DispatchReachable (limit : Nat) (chunks : List (List FRecord)) :
    DispatchState → Prop
  | refl : DispatchReachable limit chunks ⟨chunks, 0, 0⟩
  | step {s t : DispatchState} : DispatchReachable limit chunks s →
      DispatchStep limit s t → DispatchReachable limit chunks t

/-- C9: throughout one `putRecords` submission, the number of chunk-send
(drain) operations in flight never exceeds the `maxDrains` bound that the
stream passes to the parallel scheduler; a chunk beyond the limit stays
pending until a running drain finishes. -/
theorem C9_maxDrains_bound (ds : DeliveryStreamState)
    (chunks : List (List FRecord)) (s : DispatchState)
    (h : DispatchReachable ds.maxDrains chunks s) :
    s.running ≤ ds.maxDrains := by
  induction h with
  | refl => exact Nat.zero_le _
  | step hreach hstep ih =>
    cases hstep with
    | start c rest r d hr => exact hr
    | finish p r d =>
      simp only at ih ⊢
      omega

/-- Witness for C9: two chunks both started (two drains in flight) under
the constructed bound of 3. -/
theorem C9_maxDrains_bound_witness :
    (⟨[], 2, 0⟩ : DispatchState).running ≤
      (DeliveryStream.construct "n" Option.none 1500).maxDrains :=
  C9_maxDrains_bound (DeliveryStream.construct "n" Option.none 1500)
    [[⟨"a"⟩], [⟨"b"⟩]] ⟨[], 2, 0⟩
    (DispatchReachable.step
      (DispatchReachable.step DispatchReachable.refl
        (DispatchStep.start [⟨"a"⟩] [[⟨"b"⟩]] 0 0 (by decide)))
      (DispatchStep.start [⟨"b"⟩] [] 1 0 (by decide)))

/-! ### Queue (QueueableDeliveryStream) model -/

/-- A state of the queue machinery of a `QueueableDeliveryStream`:
`queue` is `this.queue`; `promise` is the identity of the shared completion
handle currently stored in `this.promise` (`Option.none` when it is null);
`nextId` supplies fresh handle identities; `inflight` holds the submissions
handed to the base `putRecords` by `drainQueue` and not yet settled, each
with the resolver captured at flush time (`this.resolver` is null exactly
when `this.promise` is); `settled` holds the completed submissions with the
handle their outcome resolved. -/
structure QueueState where
  queue : List String
  promise : Option Nat
  nextId : Nat
  inflight : List (Option Nat × List String)
  settled : List (Option Nat × List String)
deriving DecidableEq, Repr

/-- The events driving the queue: `enq rs` is one
`QueueableDeliveryStream.putRecords(rs)` call (its caller receives the
post-state `promise` as completion handle); `flush` is one `drainQueue()`
invocation (recurring timer or size-triggered `setImmediate`); `complete k`
is the settlement of the k-th in-flight submission (the `.then`
continuations after `super.putRecords`, which resolve the captured handle
and null out `this.promise`). -/
inductive QEvent where
  | enq (records : List String)
  | flush
  | complete (k : Nat)
deriving DecidableEq, Repr

/-- One step of the queue machinery. -/
def queueStep (s : QueueState) : QEvent → QueueState
  | QEvent.enq rs =>
    let s1 := { s with queue := s.queue ++ rs }
    match s.promise with
    | Option.none => { s1 with promise := some s.nextId, nextId := s.nextId + 1 }
    | some _ => s1
  | QEvent.flush =>
    if s.queue = [] then s
    else { s with queue := [], inflight := s.inflight ++ [(s.promise, s.queue)] }
  | QEvent.complete k =>
    match s.inflight.get? k with
    | Option.none => s
    | some sub =>
      { s with inflight := s.inflight.eraseIdx k
               settled := s.settled ++ [sub]
               promise := Option.none }

/-- The queue state of a freshly constructed `QueueableDeliveryStream`. -/
def initQueueState : QueueState :=
  { queue := [], promise := Option.none, nextId := 0, inflight := [], settled := [] }

/-- Run a sequence of queue events from the initial state. -/
def runQueue (events : List QEvent) : QueueState :=
  events.foldl queueStep initQueueState

/-- All records enqueued over a trace of events. -/
def enqueuedRecords : List QEvent → List String
  | [] => []
  | QEvent.enq rs :: es => rs ++ enqueuedRecords es
  | _ :: es => enqueuedRecords es

/-- The records a queue state accounts for: still buffered, in an in-flight
flushed submission, or in a settled flushed submission. -/
def liveRecords (s : QueueState) : Multiset String :=
  (s.queue : Multiset String) +
    ((s.inflight.map Prod.snd).flatten : Multiset String) +
    ((s.settled.map Prod.snd).flatten : Multiset String)

/-- The records an event adds to the queue machinery. -/
def eventRecords : QEvent → Multiset String
  | QEvent.enq rs => (rs : Multiset String)
  | QEvent.flush => 0
  | QEvent.complete _ => 0

theorem eraseIdx_records (l : List (Option Nat × List String)) :
    ∀ (k : Nat) (sub : Option Nat × List String), l.get? k = some sub →
      ((l.map Prod.snd).flatten : Multiset String) =
        (((l.eraseIdx k).map Prod.snd).flatten : Multiset String) +
          (sub.2 : Multiset String) := by
  induction l with
  | nil => intro k sub h; cases h
  | cons a t ih =>
    intro k sub h
    cases k with
    | zero =>
      injection h with h
      subst h
      simp only [List.eraseIdx_cons_zero, List.map_cons, List.flatten_cons,
        ← Multiset.coe_add]
      abel
    | succ k =>
      have ht := ih k sub h
      simp only [List.eraseIdx_cons_succ, List.map_cons, List.flatten_cons,
        ← Multiset.coe_add, ht]
      abel

theorem queueStep_conserves (s : QueueState) (e : QEvent) :
    liveRecords (queueStep s e) = liveRecords s + eventRecords e := by
  cases e with
  | enq rs =>
    cases hp : s.promise with
    | none =>
      simp only [queueStep, hp, liveRecords, eventRecords, ← Multiset.coe_add]
      abel
    | some i =>
      simp only [queueStep, hp, liveRecords, eventRecords, ← Multiset.coe_add]
      abel
  | flush =>
    by_cases hq : s.queue = []
    · simp [queueStep, hq, liveRecords, eventRecords]
    · simp only [queueStep, hq, if_false, liveRecords, eventRecords,
        List.map_append, List.flatten_append, List.map_cons, List.map_nil,
        List.flatten_cons, List.flatten_nil, List.append_nil, ← Multiset.coe_add,
        Multiset.coe_nil]
      abel
  | complete k =>
    cases hk : s.inflight.get? k with
    | none => simp only [queueStep, hk, eventRecords, add_zero]
    | some sub =>
      have he := eraseIdx_records s.inflight k sub hk
      simp only [queueStep, hk, liveRecords, eventRecords, List.map_append,
        List.flatten_append, List.map_cons, List.map_nil, List.flatten_cons,
        List.flatten_nil, List.append_nil, ← Multiset.coe_add, he]
      abel

theorem foldl_queueStep_conserves (events : List QEvent) :
    ∀ s : QueueState,
      liveRecords (events.foldl queueStep s) =
        liveRecords s + (enqueuedRecords events : Multiset String) := by
  induction events with
  | nil => intro s; simp [enqueuedRecords]
  | cons e es ih =>
    intro s
    rw [List.foldl_cons, ih (queueStep s e), queueStep_conserves s e]
    cases e with
    | enq rs =>
      have h0 : enqueuedRecords (QEvent.enq rs :: es) = rs ++ enqueuedRecords es := rfl
      have h1 : eventRecords (QEvent.enq rs) = (rs : Multiset String) := rfl
      rw [h0, ← Multiset.coe_add, h1]
      abel
    | flush => simp [enqueuedRecords, eventRecords]
    | complete k => simp [enqueuedRecords, eventRecords]

/-- C8: over any trace of queue events — including enqueues interleaved
with in-flight flushes — the multiset of enqueued records equals the
records still buffered plus those in exactly one flushed submission
(in flight or settled): no record is dropped, none is delivered twice, and
each flush moves the whole buffer into a single new submission. -/
theorem C8_queue_exactly_once (events : List QEvent) :
    ((enqueuedRecords events : List String) : Multiset String) =
      ((runQueue events).queue : Multiset String) +
        (((runQueue events).inflight.map Prod.snd).flatten : Multiset String) +
        (((runQueue events).settled.map Prod.snd).flatten : Multiset String) ∧
    (runQueue (events ++ [QEvent.flush])).queue = [] := by
  constructor
  · have h := foldl_queueStep_conserves events initQueueState
    have h0 : liveRecords initQueueState = 0 := by
      simp [liveRecords, initQueueState]
    rw [h0, zero_add] at h
    exact h.symm
  · rw [runQueue, List.foldl_append]
    show (queueStep (runQueue events) QEvent.flush).queue = []
    by_cases hq : (runQueue events).queue = []
    · simp [queueStep, hq]
    · simp [queueStep, hq]

/-- Counterexample to C2: with one record `a` enqueued (completion handle
0), flushed and still in flight, a record `b` enqueued during the flight
receives the same completion handle 0 — not a fresh one — and when the
in-flight submission settles, handle 0 is resolved with that submission's
outcome, which the caller of `b` therefore observes. -/
theorem C2_counterexample :
    (runQueue [QEvent.enq ["a"]]).promise = some 0 ∧
    (runQueue [QEvent.enq ["a"], QEvent.flush]).queue = [] ∧
    (runQueue [QEvent.enq ["a"], QEvent.flush]).inflight = [(some 0, ["a"])] ∧
    (runQueue [QEvent.enq ["a"], QEvent.flush, QEvent.enq ["b"]]).inflight =
      [(some 0, ["a"])] ∧
    (runQueue [QEvent.enq ["a"], QEvent.flush, QEvent.enq ["b"]]).promise = some 0 ∧
    (runQueue [QEvent.enq ["a"], QEvent.flush, QEvent.enq ["b"],
        QEvent.complete 0]).settled = [(some 0, ["a"])] ∧
    (runQueue [QEvent.enq ["a"], QEvent.flush, QEvent.enq ["b"],
        QEvent.complete 0]).promise = Option.none := by
  decide

/-- C2 as amended: a flush does atomically take ownership of the entire
buffer (the buffer is empty afterwards and the whole previous content forms
one new in-flight submission), and an enqueue during the flight goes only
to the new buffer; but the completion handle is not refreshed at flush
time — it keeps its identity until the flushed submission settles, so a
record enqueued while the submission is in flight joins the previous
epoch's still-pending handle, and the handle is cleared only on
completion. -/
theorem C2_epoch_amended (s : QueueState) (rs : List String) (k : Nat) :
    ((queueStep s QEvent.flush).queue = [] ∧
      (s.queue ≠ [] →
        (queueStep s QEvent.flush).inflight = s.inflight ++ [(s.promise, s.queue)]) ∧
      (queueStep s QEvent.flush).promise = s.promise ∧
      (queueStep s QEvent.flush).nextId = s.nextId) ∧
    ((queueStep s (QEvent.enq rs)).queue = s.queue ++ rs ∧
      (queueStep s (QEvent.enq rs)).inflight = s.inflight ∧
      (s.promise ≠ Option.none → (queueStep s (QEvent.enq rs)).promise = s.promise)) ∧
    (∀ sub, s.inflight.get? k = some sub →
      (queueStep s (QEvent.complete k)).promise = Option.none ∧
      (queueStep s (QEvent.complete k)).settled = s.settled ++ [sub]) := by
  refine ⟨⟨?_, ?_, ?_, ?_⟩, ⟨?_, ?_, ?_⟩, ?_⟩
  · by_cases hq : s.queue = [] <;> simp [queueStep, hq]
  · intro hq
    simp [queueStep, hq]
  · by_cases hq : s.queue = [] <;> simp [queueStep, hq]
  · by_cases hq : s.queue = [] <;> simp [queueStep, hq]
  · cases hp : s.promise <;> simp [queueStep, hp]
  · cases hp : s.promise <;> simp [queueStep, hp]
  · intro hp
    cases hps : s.promise with
    | none => exact absurd hps hp
    | some i => simp [queueStep, hps]
  · intro sub hsub
    have hsub2 : s.inflight[k]? = some sub := by
      rw [← List.get?_eq_getElem?]
      exact hsub
    simp [queueStep, hsub2]
